import Mathlib

/-!
Verification of the fp-toolkit comparer algebra and its consumers
(NonEmptyArray, Nullable, Deferred).

Modelling conventions:
* TypeScript numbers are modelled as rationals (`Rat`); the examples in the
  test suite use only small integer and decimal values, all exactly
  representable.
* Readonly JS arrays are modelled as `List`.
* A three-way compare function is modelled as `A → A → Int` (the ECMAScript
  contract only inspects the sign of the returned number).
* `Array.prototype.sort(comparator)` is modelled as a stable insertion sort
  (ECMAScript requires sort to be stable and consistent with the comparator).
-/

/-- Modelled from the spec: the `EqualityComparer` module source is not under
src/. An EqualityComparer wraps a single binary predicate `equals`. -/
structure EqualityComparer (A : Type) where
  equals : A → A → Bool

namespace EqualityComparer

/-- Modelled from the spec: `ofEquals(fn)` wraps an arbitrary binary predicate
as the equality operation (no validation is performed). -/
def ofEquals {A : Type} (fn : A → A → Bool) : EqualityComparer A :=
  ⟨fn⟩

/-- Modelled from the spec: `Default` is the canonical instance using the
host's most primitive notion of sameness (value equality for primitives);
modelled with decidable equality of the carrier type. -/
def Default {A : Type} [DecidableEq A] : EqualityComparer A :=
  ofEquals fun a b => decide (a = b)

/-- Modelled from the spec: the canonical equality comparer for numbers
(value equality of primitives). -/
def Number : EqualityComparer Rat :=
  ofEquals fun a b => decide (a = b)

end EqualityComparer

/-- Modelled from the spec: the `OrderingComparer` module source is not under
src/. An OrderingComparer wraps a single three-way comparison `compare`; only
the sign of the result is significant. -/
structure OrderingComparer (A : Type) where
  compare : A → A → Int

namespace OrderingComparer

/-- Modelled from the spec: `ofCompare(fn)` wraps a raw three-way function. -/
def ofCompare {A : Type} (fn : A → A → Int) : OrderingComparer A :=
  ⟨fn⟩

/-- Modelled from the spec: canonical base instance for numbers, ascending,
normalized to -1/0/1. -/
def Number : OrderingComparer Rat :=
  ofCompare fun a b => if a < b then -1 else if a > b then 1 else 0

/-- Modelled from the spec: `reverse(oc)` returns a new comparer with
compare(a,b) = -oc.compare(a,b). -/
def reverse {A : Type} (oc : OrderingComparer A) : OrderingComparer A :=
  ofCompare fun a b => -(oc.compare a b)

/-- Modelled from the spec: `deriveFrom(innerComparer, keyFn)` projects each
value through keyFn and delegates to innerComparer on the projected keys. -/
def deriveFrom {K A : Type} (innerComparer : OrderingComparer K)
    (keyFn : A → K) : OrderingComparer A :=
  ofCompare fun a b => innerComparer.compare (keyFn a) (keyFn b)

/-- Modelled from the spec: the lexicographic evaluation behind
`getComposite`: evaluate c1.compare(a,b); if nonzero, return it; otherwise
continue with the rest; if all comparers return zero, return zero. -/
def compositeCompare {A : Type} :
    List (OrderingComparer A) → A → A → Int
  | [], _, _ => 0
  | c :: cs, a, b =>
    if c.compare a b ≠ 0 then c.compare a b else compositeCompare cs a b

/-- Modelled from the spec: `getComposite(c1, ..., cN)` is the lexicographic
("and then by") combination of the given comparers, in argument order. The
variadic argument list is modelled as a `List`. -/
def getComposite {A : Type} (comparers : List (OrderingComparer A)) :
    OrderingComparer A :=
  ofCompare fun a b => compositeCompare comparers a b

/-- Modelled from the spec: `deriveEqualityComparer(oc)` returns an
EqualityComparer with equals(a,b) = (oc.compare(a,b) == 0). -/
def deriveEqualityComparer {A : Type} (oc : OrderingComparer A) :
    EqualityComparer A :=
  EqualityComparer.ofEquals fun a b => decide (oc.compare a b = 0)

/-- Modelled from the spec: relational predicate gt(a,b) = compare(a,b) > 0. -/
def gt {A : Type} (oc : OrderingComparer A) (a b : A) : Bool :=
  decide (oc.compare a b > 0)

/-- Modelled from the spec: relational predicate geq(a,b) = compare(a,b) >= 0. -/
def geq {A : Type} (oc : OrderingComparer A) (a b : A) : Bool :=
  decide (oc.compare a b ≥ 0)

/-- Modelled from the spec: relational predicate lt(a,b) = compare(a,b) < 0. -/
def lt {A : Type} (oc : OrderingComparer A) (a b : A) : Bool :=
  decide (oc.compare a b < 0)

/-- Modelled from the spec: relational predicate leq(a,b) = compare(a,b) <= 0. -/
def leq {A : Type} (oc : OrderingComparer A) (a b : A) : Bool :=
  decide (oc.compare a b ≤ 0)

/-- Modelled from the spec: `isBetween(oc)(lower, upper)(test)` is the
inclusive range test leq(oc)(lower, test) && leq(oc)(test, upper). -/
def isBetween {A : Type} (oc : OrderingComparer A) (lower upper : A)
    (test : A) : Bool :=
  leq oc lower test && leq oc test upper

end OrderingComparer

/-- Compare two lists of characters by UTF-16 code unit, the ECMAScript
ordering of strings. -/
def charListCompare : List Char → List Char → Int
  | [], [] => 0
  | [], _ :: _ => -1
  | _ :: _, [] => 1
  | c1 :: cs1, c2 :: cs2 =>
    if c1.toNat < c2.toNat then -1
    else if c2.toNat < c1.toNat then 1
    else charListCompare cs1 cs2

/-- Compare two strings by code unit, as the ECMAScript `<`/`>` operators do. -/
def strCompare (s1 s2 : String) : Int :=
  charListCompare s1.toList s2.toList

/-- Modelled from the spec: canonical base instance for strings, lexicographic
ascending. -/
def OrderingComparer.String : OrderingComparer String :=
  OrderingComparer.ofCompare strCompare

/-- Modelled from the spec: the default ASCII-based comparer used by
`NonEmptyArray.sort` when no comparer is supplied; it compares the string
renderings of the two values, as the JS default sort does. -/
def OrderingComparer.Default {A : Type} [ToString A] : OrderingComparer A :=
  OrderingComparer.ofCompare fun a b => strCompare (toString a) (toString b)

/-- Stable insertion of an element into a list, placing it before the first
element that is strictly greater under the comparator. -/
def insertSorted {A : Type} (cmp : A → A → Int) (a : A) : List A → List A
  | [] => [a]
  | b :: bs => if cmp a b ≤ 0 then a :: b :: bs else b :: insertSorted cmp a bs

/-- Model of `Array.prototype.sort(comparator)`: a stable comparator-based
sort (stable insertion sort). -/
def sortWith {A : Type} (cmp : A → A → Int) : List A → List A
  | [] => []
  | a :: as => insertSorted cmp a (sortWith cmp as)

/-- The three order-comparer laws named by the spec: `compare(x,x) == 0`,
antisymmetry of signs, and transitivity of the induced (non-strict) order
a ≤ b iff compare(a,b) ≤ 0. -/
def Lawful {A : Type} (oc : OrderingComparer A) : Prop :=
  (∀ x, oc.compare x x = 0) ∧
  (∀ a b, (oc.compare a b).sign = -(oc.compare b a).sign) ∧
  (∀ a b c, oc.compare a b ≤ 0 → oc.compare b c ≤ 0 → oc.compare a c ≤ 0)

/-- A small concrete comparer on Fin 3 used to witness the law-preservation
theorem. -/
def finCmp : OrderingComparer (Fin 3) :=
  OrderingComparer.ofCompare fun a b => (a.val : Int) - (b.val : Int)

/-- The cat record type used by the spec's lexicographic-composition example. -/
structure Cat where
  name : String
  age : Rat
  livesRemaining : Rat
deriving DecidableEq

/-- Cats ordered by name, via projection. -/
def byName : OrderingComparer Cat :=
  OrderingComparer.deriveFrom OrderingComparer.String (fun c => c.name)

/-- Cats ordered by age, via projection. -/
def byAge : OrderingComparer Cat :=
  OrderingComparer.deriveFrom OrderingComparer.Number (fun c => c.age)

/-- Cats ordered by lives remaining, descending, via projection and reversal. -/
def byLivesRemainingDesc : OrderingComparer Cat :=
  OrderingComparer.deriveFrom
    (OrderingComparer.reverse OrderingComparer.Number)
    (fun c => c.livesRemaining)

/-- The unsorted cat records of the spec example. -/
def shuffledCats : List Cat :=
  [⟨"Gerald", 5, 9⟩, ⟨"Rufus", 10, 3⟩, ⟨"Gerald", 5, 7⟩,
   ⟨"Arnold", 1, 9⟩, ⟨"Rufus", 10, 1⟩, ⟨"Gerald", 7, 8⟩]

/-- The expected sorted order of the spec example. -/
def sortedCats : List Cat :=
  [⟨"Arnold", 1, 9⟩, ⟨"Gerald", 5, 9⟩, ⟨"Gerald", 5, 7⟩,
   ⟨"Gerald", 7, 8⟩, ⟨"Rufus", 10, 3⟩, ⟨"Rufus", 10, 1⟩]

/-- The ascending run built by the loop `for (let i = start; i <= end; i++)`,
with the iteration count made explicit. -/
def rangeLoop (start : Int) : Nat → List Int
  | 0 => []
  | n + 1 => start :: rangeLoop (start + 1) n

/-- A reference-addressed store of JS arrays: `data` maps a reference to the
array it currently holds and `next` is the next fresh reference. Used to state
the frame conditions of operations that copy and then mutate in place. -/
structure Mem (A : Type) where
  data : Nat → List A
  next : Nat

/-- Allocate a fresh array holding `xs` (this is what `slice(0)` does to the
copied contents). -/
def Mem.alloc {A : Type} (m : Mem A) (xs : List A) : Nat × Mem A :=
  (m.next, { data := fun s => if s = m.next then xs else m.data s,
             next := m.next + 1 })

/-- Overwrite the array held at reference `r` (an in-place mutation such as
`.reverse()` or `.sort()` applied to the array at `r`). -/
def Mem.write {A : Type} (m : Mem A) (r : Nat) (xs : List A) : Mem A :=
  { data := fun s => if s = r then xs else m.data s, next := m.next }

namespace NonEmptyArray

/-- Embedding of `range` from src/src/NonEmptyArray/NonEmptyArray.ts: floor
both bounds, return the singleton of the floored start when start >= end,
otherwise enumerate the integers from start to end inclusive. -/
def range (startInclusive endInclusive : Rat) : List Int :=
  if startInclusive.floor ≥ endInclusive.floor then [startInclusive.floor]
  else rangeLoop startInclusive.floor
    (endInclusive.floor - startInclusive.floor + 1).toNat

/-- Embedding of `sort`: the optional `OrderingComparer` parameter is modelled
as an `Option`, `none` meaning the argument was omitted; the body is
`as.slice(0).sort(orderingComparer.compare)`, a copy sorted by the comparer. -/
def sort {A : Type} [ToString A]
    (orderingComparer : Option (OrderingComparer A)) (as : List A) : List A :=
  sortWith (orderingComparer.getD OrderingComparer.Default).compare as

/-- The element loop of `getEqualityComparer`: walk both arrays in index
order, returning false at the first elementwise mismatch. -/
def elementsLoop {A : Type} (equals : A → A → Bool) :
    List A → List A → Bool
  | a :: as, b :: bs =>
    if !(equals a b) then false else elementsLoop equals as bs
  | _, _ => true

/-- Embedding of `getEqualityComparer` from
src/src/NonEmptyArray/NonEmptyArray.ts: false when the lengths differ,
otherwise compare the elements pairwise in index order. -/
def getEqualityComparer {A : Type} (ec : EqualityComparer A) :
    EqualityComparer (List A) :=
  EqualityComparer.ofEquals fun arr1 arr2 =>
    if arr1.length ≠ arr2.length then false
    else elementsLoop ec.equals arr1 arr2

/-- Store-level embedding of `reverse`: `as.slice(0).reverse()` — allocate a
copy of the array at `r`, reverse the copy in place, return its reference. -/
def reverseImpl {A : Type} (m : Mem A) (r : Nat) : Nat × Mem A :=
  let copy := m.alloc (m.data r)
  (copy.1, copy.2.write copy.1 ((copy.2.data copy.1).reverse))

/-- Store-level embedding of `sort`: `as.slice(0).sort(oc.compare)` —
allocate a copy of the array at `r`, sort the copy in place with the
comparer, return its reference. -/
def sortImpl {A : Type} (oc : OrderingComparer A) (m : Mem A) (r : Nat) :
    Nat × Mem A :=
  let copy := m.alloc (m.data r)
  (copy.1, copy.2.write copy.1 (sortWith oc.compare (copy.2.data copy.1)))

end NonEmptyArray

/-- Embedding of the `Nullable` type from src/unnamed/part_001:
`Nullable<A> = A | null | undefined`, with the two nullish values kept
distinct as JS does. -/
inductive Nullable (A : Type) where
  | null
  | undefined
  | value (a : A)
deriving DecidableEq

namespace Nullable

/-- The loose check `x == null`, true exactly for null and undefined. -/
def isNullish {A : Type} : Nullable A → Bool
  | .value _ => false
  | _ => true

/-- Embedding of `Nullable.map`: `nullable != null ? f(nullable) : nullable` —
apply f to a present value, pass the nullish through unchanged. -/
def map {A B : Type} (f : A → B) : Nullable A → Nullable B
  | .value a => .value (f a)
  | .null => .null
  | .undefined => .undefined

/-- Embedding of `Nullable.bind`: `nullable != null ? f(nullable) : nullable`
with f itself returning a possibly nullish value. -/
def bind {A B : Type} (f : A → Nullable B) : Nullable A → Nullable B
  | .value a => f a
  | .null => .null
  | .undefined => .undefined

/-- The delegation `equalityComparer.equals(a1, a2)` as it is reached in the
source: both arguments are known non-nullish at that point. -/
def valuesEqual {A : Type} (ec : EqualityComparer A) :
    Nullable A → Nullable A → Bool
  | .value x, .value y => ec.equals x y
  | _, _ => false

/-- Embedding of `Nullable.getEqualityComparer` from src/unnamed/part_001:
`(a1 == null && a2 == null) || (a1 != null && a2 != null && equals(a1, a2))`. -/
def getEqualityComparer {A : Type} (equalityComparer : EqualityComparer A) :
    EqualityComparer (Nullable A) :=
  EqualityComparer.ofEquals fun a1 a2 =>
    (isNullish a1 && isNullish a2) ||
    (!isNullish a1 && !isNullish a2 && valuesEqual equalityComparer a1 a2)

end Nullable

/-- Embedding of the `Deferred` discriminated union from
src/unnamed/part_000: NotStarted, InProgress, or Resolved with data. -/
inductive Deferred (A : Type) where
  | notStarted
  | inProgress
  | resolved (a : A)
deriving DecidableEq

/-- The non-exhaustive matcher taken by `matchOrElse`: optional handlers per
case (the value-or-thunk handler union of the source is modelled by its
resolved value) plus the fallback. -/
structure MatcherOrElse (A R : Type) where
  notStarted : Option R
  inProgress : Option R
  resolved : Option (A → R)
  orElse : R

namespace Deferred

/-- Embedding of `matchOrElse` from src/unnamed/part_000: use the matching
case handler when present, otherwise the `orElse` fallback. -/
def matchOrElse {A R : Type} (matcher : MatcherOrElse A R) :
    Deferred A → R
  | .notStarted =>
    match matcher.notStarted with
    | some r => r
    | none => matcher.orElse
  | .inProgress =>
    match matcher.inProgress with
    | some r => r
    | none => matcher.orElse
  | .resolved a =>
    match matcher.resolved with
    | some f => f a
    | none => matcher.orElse

/-- Embedding of `isResolvedWith` from src/unnamed/part_000: the optional
`EqualityComparer` parameter is modelled as an `Option`, `none` meaning the
argument was omitted, in which case `EqualityComparer.Default` is used. -/
def isResolvedWith {A : Type} [DecidableEq A] (expected : A)
    (equalityComparer : Option (EqualityComparer A)) : Deferred A → Bool :=
  matchOrElse
    { notStarted := none
      inProgress := none
      resolved := some fun actual =>
        (equalityComparer.getD EqualityComparer.Default).equals actual expected
      orElse := false }

end Deferred

/-- The concrete one-array store used to witness the no-mutation theorem. -/
def memW : Mem Rat :=
  { data := fun _ => [2, 1, 3], next := 1 }

lemma int_sign_cases (x : Int) :
    (x < 0 ∧ x.sign = -1) ∨ (x = 0 ∧ x.sign = 0) ∨ (0 < x ∧ x.sign = 1) := by
  rcases lt_trichotomy x 0 with h | h | h
  · exact Or.inl ⟨h, Int.sign_eq_neg_one_iff_neg.mpr h⟩
  · exact Or.inr (Or.inl ⟨h, by simp [h]⟩)
  · exact Or.inr (Or.inr ⟨h, Int.sign_eq_one_iff_pos.mpr h⟩)

lemma sign_flip_le {x y : Int} (h : x.sign = -y.sign) (hx : x ≤ 0) :
    0 ≤ y := by
  rcases int_sign_cases x with ⟨h1, h2⟩ | ⟨h1, h2⟩ | ⟨h1, h2⟩ <;>
    rcases int_sign_cases y with ⟨h3, h4⟩ | ⟨h3, h4⟩ | ⟨h3, h4⟩ <;>
    omega

lemma sign_flip_zero {x y : Int} (h : x.sign = -y.sign) (hx : x = 0) :
    y = 0 := by
  rcases int_sign_cases x with ⟨h1, h2⟩ | ⟨h1, h2⟩ | ⟨h1, h2⟩ <;>
    rcases int_sign_cases y with ⟨h3, h4⟩ | ⟨h3, h4⟩ | ⟨h3, h4⟩ <;>
    omega

/-- The `reverse` combinator preserves the three comparer laws. -/
lemma lawful_reverse {A : Type} (oc : OrderingComparer A) (h : Lawful oc) :
    Lawful (OrderingComparer.reverse oc) := by
  obtain ⟨hrefl, hanti, htrans⟩ := h
  refine ⟨?_, ?_, ?_⟩
  · intro x
    simp [OrderingComparer.reverse, OrderingComparer.ofCompare, hrefl x]
  · intro a b
    simp [OrderingComparer.reverse, OrderingComparer.ofCompare, hanti a b]
  · intro a b c hab hbc
    simp only [OrderingComparer.reverse, OrderingComparer.ofCompare,
      neg_nonpos] at hab hbc ⊢
    have h1 : oc.compare b a ≤ 0 := by
      have := hanti a b
      rcases int_sign_cases (oc.compare a b) with ⟨g1, g2⟩ | ⟨g1, g2⟩ | ⟨g1, g2⟩ <;>
        rcases int_sign_cases (oc.compare b a) with ⟨g3, g4⟩ | ⟨g3, g4⟩ | ⟨g3, g4⟩ <;>
        omega
    have h2 : oc.compare c b ≤ 0 := by
      have := hanti b c
      rcases int_sign_cases (oc.compare b c) with ⟨g1, g2⟩ | ⟨g1, g2⟩ | ⟨g1, g2⟩ <;>
        rcases int_sign_cases (oc.compare c b) with ⟨g3, g4⟩ | ⟨g3, g4⟩ | ⟨g3, g4⟩ <;>
        omega
    have h3 : oc.compare c a ≤ 0 := htrans c b a h2 h1
    have := hanti a c
    rcases int_sign_cases (oc.compare a c) with ⟨g1, g2⟩ | ⟨g1, g2⟩ | ⟨g1, g2⟩ <;>
      rcases int_sign_cases (oc.compare c a) with ⟨g3, g4⟩ | ⟨g3, g4⟩ | ⟨g3, g4⟩ <;>
      omega

/-- The `deriveFrom` combinator preserves the three comparer laws. -/
lemma lawful_deriveFrom {K A : Type} (inner : OrderingComparer K)
    (keyFn : A → K) (h : Lawful inner) :
    Lawful (OrderingComparer.deriveFrom inner keyFn) := by
  obtain ⟨hrefl, hanti, htrans⟩ := h
  exact ⟨fun x => hrefl (keyFn x), fun a b => hanti (keyFn a) (keyFn b),
    fun a b c hab hbc => htrans (keyFn a) (keyFn b) (keyFn c) hab hbc⟩

/-- C4: deriveFrom projects values through the key function and delegates to
the inner comparer: deriveFrom(inner, keyFn).compare(a,b) =
inner.compare(keyFn(a), keyFn(b)). -/
theorem deriveFrom_projects :
    ∀ (K A : Type) (innerComparer : OrderingComparer K) (keyFn : A → K)
      (a b : A),
      (OrderingComparer.deriveFrom innerComparer keyFn).compare a b =
        innerComparer.compare (keyFn a) (keyFn b) :=
  fun _ _ _ _ _ _ => rfl

/-- C3: reverse negates the compare result (zero staying zero), and sorting
the spec's sample list with the reversed numeric comparer yields the exact
mirror of the ascending result. -/
theorem reverse_negates_compare :
    (∀ (A : Type) (oc : OrderingComparer A) (a b : A),
      (OrderingComparer.reverse oc).compare a b = -(oc.compare a b) ∧
      ((OrderingComparer.reverse oc).compare a b = 0 ↔ oc.compare a b = 0)) ∧
    sortWith OrderingComparer.Number.compare
        [-11, -13, 2, 0, 45, 1, 8, 2, 100, -1] =
      [-13, -11, -1, 0, 1, 2, 2, 8, 45, 100] ∧
    sortWith (OrderingComparer.reverse OrderingComparer.Number).compare
        [-11, -13, 2, 0, 45, 1, 8, 2, 100, -1] =
      [100, 45, 8, 2, 2, 1, 0, -1, -11, -13] := by
  refine ⟨fun A oc a b => ⟨rfl, ?_⟩, by decide, by decide⟩
  simp [OrderingComparer.reverse, OrderingComparer.ofCompare]

section LawfulHelpers

variable {A : Type} {oc : OrderingComparer A}

/-- From sign-antisymmetry: compare(a,b) = 0 implies compare(b,a) = 0. -/
lemma lawful_zero_swap (h : Lawful oc) {a b : A}
    (hab : oc.compare a b = 0) : oc.compare b a = 0 := by
  have := h.2.1 a b
  exact sign_flip_zero (by omega) hab

/-- From sign-antisymmetry: compare(a,b) ≤ 0 implies 0 ≤ compare(b,a). -/
lemma lawful_le_swap (h : Lawful oc) {a b : A}
    (hab : oc.compare a b ≤ 0) : 0 ≤ oc.compare b a := by
  have := h.2.1 a b
  exact sign_flip_le (by omega) hab

/-- A tie followed by a strict decrease is a strict decrease. -/
lemma lawful_zero_lt_trans (h : Lawful oc) {a b c : A}
    (hab : oc.compare a b = 0) (hbc : oc.compare b c < 0) :
    oc.compare a c < 0 := by
  have hle : oc.compare a c ≤ 0 := h.2.2 a b c (le_of_eq hab) (le_of_lt hbc)
  rcases lt_or_eq_of_le hle with hlt | heq
  · exact hlt
  · exfalso
    have h1 : oc.compare c a = 0 := lawful_zero_swap h heq
    have h2 : oc.compare c b ≤ 0 := h.2.2 c a b (le_of_eq h1) (le_of_eq hab)
    have h3 : 0 ≤ oc.compare b c := lawful_le_swap h h2
    omega

/-- A strict decrease followed by a tie is a strict decrease. -/
lemma lawful_lt_zero_trans (h : Lawful oc) {a b c : A}
    (hab : oc.compare a b < 0) (hbc : oc.compare b c = 0) :
    oc.compare a c < 0 := by
  have hle : oc.compare a c ≤ 0 := h.2.2 a b c (le_of_lt hab) (le_of_eq hbc)
  rcases lt_or_eq_of_le hle with hlt | heq
  · exact hlt
  · exfalso
    have h1 : oc.compare c a = 0 := lawful_zero_swap h heq
    have h2 : oc.compare b a ≤ 0 := h.2.2 b c a (le_of_eq hbc) (le_of_eq h1)
    have h3 : 0 ≤ oc.compare a b := lawful_le_swap h h2
    omega

/-- Strict decreases compose. -/
lemma lawful_lt_trans (h : Lawful oc) {a b c : A}
    (hab : oc.compare a b < 0) (hbc : oc.compare b c < 0) :
    oc.compare a c < 0 := by
  have hle : oc.compare a c ≤ 0 := h.2.2 a b c (le_of_lt hab) (le_of_lt hbc)
  rcases lt_or_eq_of_le hle with hlt | heq
  · exact hlt
  · exfalso
    have h1 : oc.compare c a = 0 := lawful_zero_swap h heq
    have h2 : oc.compare c b ≤ 0 := h.2.2 c a b (le_of_eq h1) (le_of_lt hab)
    have h3 : 0 ≤ oc.compare b c := lawful_le_swap h h2
    omega

/-- Ties compose. -/
lemma lawful_zero_trans (h : Lawful oc) {a b c : A}
    (hab : oc.compare a b = 0) (hbc : oc.compare b c = 0) :
    oc.compare a c = 0 := by
  have hle : oc.compare a c ≤ 0 := h.2.2 a b c (le_of_eq hab) (le_of_eq hbc)
  have h1 : oc.compare c b = 0 := lawful_zero_swap h hbc
  have h2 : oc.compare b a = 0 := lawful_zero_swap h hab
  have h3 : oc.compare c a ≤ 0 := h.2.2 c b a (le_of_eq h1) (le_of_eq h2)
  have h4 : 0 ≤ oc.compare a c := lawful_le_swap h h3
  omega

end LawfulHelpers

/-- One unfolding step of the lexicographic composite. -/
lemma compositeCompare_cons {A : Type} (c : OrderingComparer A)
    (cs : List (OrderingComparer A)) (a b : A) :
    OrderingComparer.compositeCompare (c :: cs) a b =
      if c.compare a b ≠ 0 then c.compare a b
      else OrderingComparer.compositeCompare cs a b :=
  rfl

/-- The lexicographic composite evaluation preserves the three comparer laws,
provided every component comparer satisfies them. -/
lemma lawful_compositeCompare {A : Type} (cs : List (OrderingComparer A))
    (h : ∀ c ∈ cs, Lawful c) :
    (∀ x, OrderingComparer.compositeCompare cs x x = 0) ∧
    (∀ a b, (OrderingComparer.compositeCompare cs a b).sign =
      -(OrderingComparer.compositeCompare cs b a).sign) ∧
    (∀ a b c, OrderingComparer.compositeCompare cs a b ≤ 0 →
      OrderingComparer.compositeCompare cs b c ≤ 0 →
      OrderingComparer.compositeCompare cs a c ≤ 0) := by
  induction cs with
  | nil =>
    refine ⟨fun x => rfl, fun a b => rfl, fun a b c _ _ => le_refl 0⟩
  | cons c cs ih =>
    have hc : Lawful c := h c (List.mem_cons_self c cs)
    have hcs : ∀ c' ∈ cs, Lawful c' := fun c' hc' => h c' (List.mem_cons_of_mem c hc')
    obtain ⟨trefl, tanti, ttrans⟩ := ih hcs
    refine ⟨?_, ?_, ?_⟩
    · intro x
      rw [compositeCompare_cons]
      simp [hc.1 x, trefl x]
    · intro a b
      rw [compositeCompare_cons, compositeCompare_cons]
      by_cases hab : c.compare a b = 0
      · have hba : c.compare b a = 0 := lawful_zero_swap hc hab
        simp [hab, hba, tanti a b]
      · have hba : c.compare b a ≠ 0 := fun h0 => hab (lawful_zero_swap hc h0)
        simp [hab, hba, hc.2.1 a b]
    · intro a b d hab hbd
      rw [compositeCompare_cons] at hab hbd ⊢
      by_cases h1 : c.compare a b = 0 <;> by_cases h2 : c.compare b d = 0
      · have h3 : c.compare a d = 0 := lawful_zero_trans hc h1 h2
        simp only [h1, h2, h3, ne_eq, not_true_eq_false, if_false] at hab hbd ⊢
        exact ttrans a b d hab hbd
      · simp only [h1, h2, ne_eq, not_false_eq_true, if_true, not_true_eq_false,
          if_false] at hab hbd
        have h4 : c.compare b d < 0 := lt_of_le_of_ne hbd h2
        have h5 : c.compare a d < 0 := lawful_zero_lt_trans hc h1 h4
        simp [ne_of_lt h5, le_of_lt h5]
      · simp only [h1, h2, ne_eq, not_false_eq_true, if_true, not_true_eq_false,
          if_false] at hab hbd
        have h4 : c.compare a b < 0 := lt_of_le_of_ne hab h1
        have h5 : c.compare a d < 0 := lawful_lt_zero_trans hc h4 h2
        simp [ne_of_lt h5, le_of_lt h5]
      · simp only [h1, h2, ne_eq, not_false_eq_true, if_true] at hab hbd
        have h4 : c.compare a b < 0 := lt_of_le_of_ne hab h1
        have h5 : c.compare b d < 0 := lt_of_le_of_ne hbd h2
        have h6 : c.compare a d < 0 := lawful_lt_trans hc h4 h5
        simp [ne_of_lt h6, le_of_lt h6]

/-- The `getComposite` combinator preserves the three comparer laws, provided
every component comparer satisfies them. -/
lemma lawful_getComposite {A : Type} (cs : List (OrderingComparer A))
    (h : ∀ c ∈ cs, Lawful c) : Lawful (OrderingComparer.getComposite cs) := by
  obtain ⟨h1, h2, h3⟩ := lawful_compositeCompare cs h
  exact ⟨h1, h2, h3⟩

/-- C1: every comparer derived by this module's combinators (reverse,
deriveFrom, getComposite) from comparers satisfying compare(x,x) = 0,
sign-antisymmetry and transitivity of the induced order satisfies those three
laws as well. -/
theorem derived_comparers_preserve_laws :
    (∀ (A : Type) (oc : OrderingComparer A), Lawful oc →
      Lawful (OrderingComparer.reverse oc)) ∧
    (∀ (K A : Type) (innerComparer : OrderingComparer K) (keyFn : A → K),
      Lawful innerComparer →
      Lawful (OrderingComparer.deriveFrom innerComparer keyFn)) ∧
    (∀ (A : Type) (cs : List (OrderingComparer A)), (∀ c ∈ cs, Lawful c) →
      Lawful (OrderingComparer.getComposite cs)) :=
  ⟨fun _ oc h => lawful_reverse oc h,
   fun _ _ inner keyFn h => lawful_deriveFrom inner keyFn h,
   fun _ cs h => lawful_getComposite cs h⟩

/-- The concrete Fin 3 comparer satisfies the three laws. -/
lemma finCmp_lawful : Lawful finCmp := by
  refine ⟨?_, ?_, ?_⟩ <;> decide

/-- Witness for C1 at a concrete input: the laws hold for the reversal,
derivation and composite of a concrete lawful comparer on Fin 3. -/
theorem derived_comparers_preserve_laws_witness :
    Lawful (OrderingComparer.reverse finCmp) ∧
    Lawful (OrderingComparer.deriveFrom finCmp (fun a : Fin 3 => a)) ∧
    Lawful (OrderingComparer.getComposite [finCmp]) :=
  ⟨derived_comparers_preserve_laws.1 (Fin 3) finCmp finCmp_lawful,
   derived_comparers_preserve_laws.2.1 (Fin 3) (Fin 3) finCmp
     (fun a => a) finCmp_lawful,
   derived_comparers_preserve_laws.2.2 (Fin 3) [finCmp]
     (by intro c hc; rw [List.mem_singleton] at hc; subst hc; exact finCmp_lawful)⟩

/-- C2: the composite comparer returns the result of the first comparer in
argument order whose compare is nonzero (zero when all are zero), and the
cat example sorts into the order given by the spec. -/
theorem getComposite_first_nonzero :
    (∀ (A : Type) (cs : List (OrderingComparer A)) (a b : A),
      (OrderingComparer.getComposite cs).compare a b =
        (match cs.find? (fun c => c.compare a b != 0) with
         | some c => c.compare a b
         | none => 0)) ∧
    sortWith (OrderingComparer.getComposite
        [byName, byAge, byLivesRemainingDesc]).compare shuffledCats =
      sortedCats := by
  refine ⟨?_, by decide⟩
  intro A cs a b
  induction cs with
  | nil => rfl
  | cons c cs ih =>
    show OrderingComparer.compositeCompare (c :: cs) a b = _
    rw [compositeCompare_cons]
    by_cases h : c.compare a b = 0
    · have hb : (c.compare a b != 0) = false := by simp [h]
      rw [List.find?_cons_of_neg _ (by simp [hb]), if_neg (by simp [h])]
      exact ih
    · have hb : (c.compare a b != 0) = true := by simp [h]
      rw [List.find?_cons_of_pos _ (by simp [hb]), if_pos h]

/-- On equal-length lists, the element loop succeeds exactly when every index
holds elements equal under the inner predicate. -/
lemma elementsLoop_eq_true_iff {A : Type} (eq : A → A → Bool) :
    ∀ (l1 l2 : List A), l1.length = l2.length →
      (NonEmptyArray.elementsLoop eq l1 l2 = true ↔
        ∀ i (h1 : i < l1.length) (h2 : i < l2.length),
          eq (l1.get ⟨i, h1⟩) (l2.get ⟨i, h2⟩) = true) := by
  intro l1
  induction l1 with
  | nil =>
    intro l2 hlen
    cases l2 with
    | nil => simp [NonEmptyArray.elementsLoop]
    | cons b bs => simp at hlen
  | cons a as ih =>
    intro l2 hlen
    cases l2 with
    | nil => simp at hlen
    | cons b bs =>
      have hlen' : as.length = bs.length := by simpa using hlen
      show (if !(eq a b) then false else NonEmptyArray.elementsLoop eq as bs) = true ↔ _
      by_cases hab : eq a b = true
      · rw [if_neg (by simp [hab]), ih bs hlen']
        constructor
        · intro hall i h1 h2
          match i with
          | 0 => exact hab
          | n + 1 =>
            exact hall n (Nat.lt_of_succ_lt_succ h1) (Nat.lt_of_succ_lt_succ h2)
        · intro hall i h1 h2
          exact hall (i + 1) (Nat.succ_lt_succ h1) (Nat.succ_lt_succ h2)
      · have hfalse : eq a b = false := by revert hab; cases eq a b <;> simp
        rw [if_pos (by simp [hfalse])]
        refine ⟨fun h => absurd h (by simp), fun hall => ?_⟩
        exact absurd (hall 0 (Nat.succ_pos _) (Nat.succ_pos _))
          (by simp [hfalse])

/-- C5: the container equality comparer built by
`NonEmptyArray.getEqualityComparer` returns true exactly when the lengths
match and all element pairs are equal under the inner comparer (hence false
on a length mismatch or any elementwise mismatch), and the three examples of
the spec evaluate as stated. -/
theorem getEqualityComparer_structural :
    (∀ (A : Type) (ec : EqualityComparer A) (arr1 arr2 : List A),
      (NonEmptyArray.getEqualityComparer ec).equals arr1 arr2 = true ↔
        arr1.length = arr2.length ∧
        ∀ i (h1 : i < arr1.length) (h2 : i < arr2.length),
          ec.equals (arr1.get ⟨i, h1⟩) (arr2.get ⟨i, h2⟩) = true) ∧
    (NonEmptyArray.getEqualityComparer EqualityComparer.Number).equals
      [1, 2, 3] [1, 2] = false ∧
    (NonEmptyArray.getEqualityComparer EqualityComparer.Number).equals
      [1, 2, 3] [1, 3, 2] = false ∧
    (NonEmptyArray.getEqualityComparer EqualityComparer.Number).equals
      [1, 2, 3] [1, 2, 3] = true := by
  refine ⟨?_, by decide, by decide, by decide⟩
  intro A ec arr1 arr2
  show (if arr1.length ≠ arr2.length then false
      else NonEmptyArray.elementsLoop ec.equals arr1 arr2) = true ↔ _
  by_cases hlen : arr1.length = arr2.length
  · rw [if_neg (by simp [hlen])]
    rw [elementsLoop_eq_true_iff ec.equals arr1 arr2 hlen]
    exact ⟨fun h => ⟨hlen, h⟩, fun h => h.2⟩
  · rw [if_pos hlen]
    simp [hlen]

/-- Witness for C5 at a concrete input: equal lists of equal length are
accepted by the derived container comparer. -/
theorem getEqualityComparer_structural_witness :
    (NonEmptyArray.getEqualityComparer EqualityComparer.Number).equals
      [4, 7] [4, 7] = true :=
  (getEqualityComparer_structural.1 Rat EqualityComparer.Number
    [4, 7] [4, 7]).mpr ⟨rfl, by decide⟩

/-- C6: the nullable-aware equality comparer treats any two nullish values
(null or undefined, in any combination) as equal, a nullish and a present
value as unequal, and delegates two present values to the base comparer. -/
theorem nullable_getEqualityComparer_cases :
    ∀ (A : Type) (ec : EqualityComparer A) (a b : Nullable A),
      (Nullable.getEqualityComparer ec).equals a b =
        match a, b with
        | .value x, .value y => ec.equals x y
        | .value _, _ => false
        | _, .value _ => false
        | _, _ => true := by
  intro A ec a b
  cases a <;> cases b <;>
    simp [Nullable.getEqualityComparer, Nullable.isNullish,
      Nullable.valuesEqual, EqualityComparer.ofEquals]

/-- C7: the comparer parameters of consumers are optional and default to the
canonical default instance: omitting the comparer of `NonEmptyArray.sort`
gives `OrderingComparer.Default`, and omitting the equality comparer of
`Deferred.isResolvedWith` gives `EqualityComparer.Default`. -/
theorem optional_comparer_defaults :
    (∀ (A : Type) [ToString A] (as : List A),
      NonEmptyArray.sort none as =
        NonEmptyArray.sort (some OrderingComparer.Default) as) ∧
    (∀ (A : Type) [DecidableEq A] (expected : A) (d : Deferred A),
      Deferred.isResolvedWith expected none d =
        Deferred.isResolvedWith expected (some EqualityComparer.Default) d) :=
  ⟨fun _ _ _ => rfl, fun _ _ _ _ => rfl⟩

/-- The ascending loop enumerates `start, start+1, ...` for `n` steps. -/
lemma rangeLoop_eq_map :
    ∀ (n : Nat) (start : Int),
      rangeLoop start n = (List.range n).map (fun i : Nat => start + (i : Int)) := by
  intro n
  induction n with
  | zero => intro start; rfl
  | succ n ih =>
    intro start
    rw [rangeLoop, ih (start + 1), List.range_succ_eq_map, List.map_cons,
      List.map_map]
    congr 1
    · simp
    · apply List.map_congr_left
      intro i _
      simp only [Function.comp_apply]
      push_cast
      ring

/-- C8: `NonEmptyArray.range` never returns an empty list; it returns the
singleton of the floored start when floor(start) >= floor(end), and otherwise
the consecutive integers from floor(start) to floor(end) inclusive. -/
theorem range_consecutive_integers :
    ∀ (startInclusive endInclusive : Rat),
      NonEmptyArray.range startInclusive endInclusive ≠ [] ∧
      (startInclusive.floor ≥ endInclusive.floor →
        NonEmptyArray.range startInclusive endInclusive =
          [startInclusive.floor]) ∧
      (startInclusive.floor < endInclusive.floor →
        NonEmptyArray.range startInclusive endInclusive =
          (List.range
              (endInclusive.floor - startInclusive.floor + 1).toNat).map
            (fun i : Nat => startInclusive.floor + (i : Int))) := by
  intro s e
  by_cases h : s.floor ≥ e.floor
  · refine ⟨?_, fun _ => ?_, fun hlt => absurd hlt (not_lt.mpr h)⟩
    · show (if s.floor ≥ e.floor then [s.floor] else _) ≠ []
      rw [if_pos h]
      simp
    · show (if s.floor ≥ e.floor then [s.floor] else _) = _
      rw [if_pos h]
  · have hlt : s.floor < e.floor := lt_of_not_ge h
    have hrw : NonEmptyArray.range s e =
        rangeLoop s.floor (e.floor - s.floor + 1).toNat := by
      show (if s.floor ≥ e.floor then [s.floor] else _) = _
      rw [if_neg h]
    have hpos : 0 < (e.floor - s.floor + 1).toNat := by omega
    refine ⟨?_, fun hge => absurd hge h, fun _ => ?_⟩
    · rw [hrw]
      obtain ⟨n, hn⟩ := Nat.exists_eq_succ_of_ne_zero (Nat.pos_iff_ne_zero.mp hpos)
      rw [hn, rangeLoop]
      simp
    · rw [hrw, rangeLoop_eq_map]

/-- Witness for C8 at concrete inputs: range(1.5, 4.5) is the consecutive
integers 1 through 4, and range(2, -5) is the singleton [2]. -/
theorem range_consecutive_integers_witness :
    NonEmptyArray.range (mkRat 3 2) (mkRat 9 2) = [1, 2, 3, 4] ∧
    NonEmptyArray.range 2 (-5) = [2] := by
  constructor
  · rw [(range_consecutive_integers (mkRat 3 2) (mkRat 9 2)).2.2 (by decide)]
    decide
  · rw [(range_consecutive_integers 2 (-5)).2.1 (by decide)]
    decide

/-- C9: `Nullable.map` and `Nullable.bind` pass a nullish input through
unchanged — null maps to null and undefined to undefined, whatever the
function — so the mapping function is never consulted on a nullish input. -/
theorem nullable_map_bind_pass_through_nullish :
    ∀ (A B : Type) (f : A → B) (g : A → Nullable B),
      Nullable.map f Nullable.null = Nullable.null ∧
      Nullable.map f Nullable.undefined = Nullable.undefined ∧
      Nullable.bind g Nullable.null = Nullable.null ∧
      Nullable.bind g Nullable.undefined = Nullable.undefined :=
  fun _ _ _ _ => ⟨rfl, rfl, rfl, rfl⟩

/-- C10: `NonEmptyArray.reverse` and `NonEmptyArray.sort` never mutate their
input: the returned array is a freshly allocated one (its reference differs
from the input's), the input reference still holds exactly its old contents
afterwards, and the fresh array holds the reversed (resp. sorted) contents. -/
theorem sort_reverse_no_mutation :
    ∀ (A : Type) (m : Mem A) (r : Nat) (oc : OrderingComparer A),
      r < m.next →
      (NonEmptyArray.reverseImpl m r).1 ≠ r ∧
      (NonEmptyArray.reverseImpl m r).2.data r = m.data r ∧
      (NonEmptyArray.reverseImpl m r).2.data (NonEmptyArray.reverseImpl m r).1 =
        (m.data r).reverse ∧
      (NonEmptyArray.sortImpl oc m r).1 ≠ r ∧
      (NonEmptyArray.sortImpl oc m r).2.data r = m.data r ∧
      (NonEmptyArray.sortImpl oc m r).2.data (NonEmptyArray.sortImpl oc m r).1 =
        sortWith oc.compare (m.data r) := by
  intro A m r oc h
  have hr : r ≠ m.next := ne_of_lt h
  refine ⟨fun he => hr he.symm, ?_, ?_, fun he => hr he.symm, ?_, ?_⟩ <;>
    simp [NonEmptyArray.reverseImpl, NonEmptyArray.sortImpl, Mem.alloc,
      Mem.write, hr]

/-- Witness for C10 at a concrete input: reversing and sorting the array
[2,1,3] held at reference 0 leaves reference 0 holding [2,1,3] and produces
fresh arrays holding [3,1,2] and [1,2,3]. -/
theorem sort_reverse_no_mutation_witness :
    (NonEmptyArray.reverseImpl memW 0).2.data 0 = [2, 1, 3] ∧
    (NonEmptyArray.reverseImpl memW 0).2.data
      (NonEmptyArray.reverseImpl memW 0).1 = [3, 1, 2] ∧
    (NonEmptyArray.sortImpl OrderingComparer.Number memW 0).2.data
      (NonEmptyArray.sortImpl OrderingComparer.Number memW 0).1 = [1, 2, 3] := by
  have h := sort_reverse_no_mutation Rat memW 0 OrderingComparer.Number
    (by decide)
  exact ⟨h.2.1.trans rfl, h.2.2.1.trans (by decide), h.2.2.2.2.2.trans (by decide)⟩
